import Mathlib

/-!
Shallow embedding of the filter-and-aggregate pipeline of `src/app.py`,
an AI-job-market dashboard: a table is loaded from CSV, rows are filtered
by set membership on the Job Title / Industry / Location columns, and a
fixed collection of aggregates (mean salary by job title, salary pairs by
industry, job counts by location, top-10 skill tokens, a salary histogram,
a monthly mean-salary trend) is computed from the filtered view, which is
finally serialized back to CSV.

Rows are modelled as records over the required columns; `Salary` is an
integer, `Skills` and `Date` may be missing (pandas NaN is `none`).
-/

/-- One row of the loaded table.  Columns: Job Title, Industry, Location,
Salary, Skills, Date.  `skills`/`date` are `none` when the cell is missing
(pandas NaN), matching the `dropna` calls in the source. -/
structure Row where
  jobTitle : String
  industry : String
  location : String
  salary : Int
  skills : Option String
  date : Option String
deriving DecidableEq, Repr

/-- `filtered_df` from app.py lines 58-64: start from a copy of the table
and successively keep only the rows whose Job Title / Industry / Location
is a member of the corresponding multiselect list, skipping a dimension
whenever its selection list is empty (Python truthiness of the list). -/
def filtered_df (df : List Row) (selJob selInd selLoc : List String) : List Row :=
  let d1 := if selJob.isEmpty then df else df.filter (fun r => selJob.contains r.jobTitle)
  let d2 := if selInd.isEmpty then d1 else d1.filter (fun r => selInd.contains r.industry)
  if selLoc.isEmpty then d2 else d2.filter (fun r => selLoc.contains r.location)

/-- The per-row predicate stated by the spec for the filter engine: a row
passes when, for each dimension, the selection set is empty or the row's
value belongs to it.  This is the spec-side definition that `filtered_df`
is compared against. -/
def specPasses (selJob selInd selLoc : List String) (r : Row) : Bool :=
  (selJob.isEmpty || selJob.contains r.jobTitle)
    && (selInd.isEmpty || selInd.contains r.industry)
    && (selLoc.isEmpty || selLoc.contains r.location)

/-- The distinct values of the Job Title column, first occurrences kept,
as `df['Job Title'].unique()` returns them. -/
def uniqueJobs (df : List Row) : List String :=
  (df.map Row.jobTitle).dedup

/-- The distinct values of the Industry column, as `unique()` returns them. -/
def uniqueIndustries (df : List Row) : List String :=
  (df.map Row.industry).dedup

/-- The distinct values of the Location column, as `unique()` returns them. -/
def uniqueLocations (df : List Row) : List String :=
  (df.map Row.location).dedup

lemma filtered_df_eq_filter (df : List Row) (sj si sl : List String) :
    filtered_df df sj si sl = df.filter (specPasses sj si sl) := by
  unfold filtered_df specPasses
  rcases hj : sj.isEmpty <;> rcases hi : si.isEmpty <;> rcases hl : sl.isEmpty <;>
    simp [hj, hi, hl, List.filter_filter, Bool.and_comm, Bool.and_left_comm]

lemma specPasses_iff (sj si sl : List String) (r : Row) :
    specPasses sj si sl r = true ↔
      (sj = [] ∨ r.jobTitle ∈ sj) ∧ (si = [] ∨ r.industry ∈ si)
        ∧ (sl = [] ∨ r.location ∈ sl) := by
  simp [specPasses, List.isEmpty_iff, and_assoc]

/-- C1: the filtered view consists exactly of the rows of the loaded table
satisfying, in each of the three dimensions, membership in that dimension's
selection set whenever the set is non-empty, with an empty selection set
passing every row. -/
theorem C1_filtered_view_is_membership_filter
    (df : List Row) (sj si sl : List String) :
    filtered_df df sj si sl = df.filter (specPasses sj si sl) ∧
    ∀ r : Row, specPasses sj si sl r = true ↔
      (sj = [] ∨ r.jobTitle ∈ sj) ∧ (si = [] ∨ r.industry ∈ si)
        ∧ (sl = [] ∨ r.location ∈ sl) :=
  ⟨filtered_df_eq_filter df sj si sl, fun r => specPasses_iff sj si sl r⟩

/-- C5: an empty selection set for one dimension produces the same filtered
view as explicitly selecting every distinct value of that dimension, the
other two selection sets held fixed. -/
theorem C5_empty_selection_equals_select_all
    (df : List Row) (sj si sl : List String) :
    filtered_df df (uniqueJobs df) si sl = filtered_df df [] si sl ∧
    filtered_df df sj (uniqueIndustries df) sl = filtered_df df sj [] sl ∧
    filtered_df df sj si (uniqueLocations df) = filtered_df df sj si [] := by
  refine ⟨?_, ?_, ?_⟩
  · rw [filtered_df_eq_filter, filtered_df_eq_filter]
    refine List.filter_congr fun r hr => ?_
    have hex : ∃ a ∈ df, a.jobTitle = r.jobTitle := ⟨r, hr, rfl⟩
    simp [specPasses, uniqueJobs, List.mem_dedup, List.mem_map, hex]
  · rw [filtered_df_eq_filter, filtered_df_eq_filter]
    refine List.filter_congr fun r hr => ?_
    have hex : ∃ a ∈ df, a.industry = r.industry := ⟨r, hr, rfl⟩
    simp [specPasses, uniqueIndustries, List.mem_dedup, List.mem_map, hex]
  · rw [filtered_df_eq_filter, filtered_df_eq_filter]
    refine List.filter_congr fun r hr => ?_
    have hex : ∃ a ∈ df, a.location = r.location := ⟨r, hr, rfl⟩
    simp [specPasses, uniqueLocations, List.mem_dedup, List.mem_map, hex]

/-- C6: the filtered view never has more rows than the loaded table, and
filtering is idempotent: re-applying the same three selection sets to the
filtered view returns it unchanged. -/
theorem C6_length_le_and_idempotent
    (df : List Row) (sj si sl : List String) :
    (filtered_df df sj si sl).length ≤ df.length ∧
    filtered_df (filtered_df df sj si sl) sj si sl = filtered_df df sj si sl := by
  constructor
  · rw [filtered_df_eq_filter]
    exact List.length_filter_le _ _
  · simp [filtered_df_eq_filter, List.filter_filter]

/-- C9: the filtered view is a subsequence of the loaded table, so any two
rows that both survive filtering keep their relative order. -/
theorem C9_filter_preserves_row_order
    (df : List Row) (sj si sl : List String) :
    (filtered_df df sj si sl).Sublist df := by
  rw [filtered_df_eq_filter]
  exact List.filter_sublist df

/-- Helper for `dedupFirst`: drops every element already in `seen`,
keeping first occurrences. -/
def dedupFirstAux {α : Type} [DecidableEq α] (seen : List α) : List α → List α
  | [] => []
  | x :: t => if x ∈ seen then dedupFirstAux seen t else x :: dedupFirstAux (x :: seen) t

/-- The distinct elements of a list in order of first occurrence — the
enumeration order `collections.Counter` (insertion order) uses for keys. -/
def dedupFirst {α : Type} [DecidableEq α] (l : List α) : List α :=
  dedupFirstAux [] l

/-- Occurrence counts of the distinct elements of `xs`, keys in first-seen
order — the content of `collections.Counter(xs)` / `value_counts`. -/
def tally {α : Type} [DecidableEq α] (xs : List α) : List (α × Nat) :=
  (dedupFirst xs).map (fun a => (a, xs.count a))

/-- Comparison placing larger second components first; sorting with it
yields a descending order on counts/means. -/
def descBySnd {α β : Type} [LinearOrder β] (a b : α × β) : Prop :=
  b.2 ≤ a.2

instance {α β : Type} [LinearOrder β] : DecidableRel (α := α × β) descBySnd :=
  fun a b => inferInstanceAs (Decidable (b.2 ≤ a.2))

instance {α β : Type} [LinearOrder β] : IsTotal (α × β) descBySnd :=
  ⟨fun a b => le_total b.2 a.2⟩

instance {α β : Type} [LinearOrder β] : IsTrans (α × β) descBySnd :=
  ⟨fun _ _ _ h1 h2 => le_trans h2 h1⟩

/-- Stable sort placing entries with larger second component first, the
order `most_common` / `value_counts` / `sort_values(ascending=False)`
produce (tie order among equal values is implementation-defined in the
source; the stable choice here realizes one such order). -/
def sortDescBySnd {α β : Type} [LinearOrder β] (l : List (α × β)) : List (α × β) :=
  List.insertionSort descBySnd l

lemma mem_dedupFirstAux {α : Type} [DecidableEq α] (xs : List α) :
    ∀ (seen : List α) (a : α), a ∈ dedupFirstAux seen xs ↔ a ∈ xs ∧ a ∉ seen := by
  induction xs with
  | nil => intro seen a; simp [dedupFirstAux]
  | cons x t ih =>
    intro seen a
    by_cases hx : x ∈ seen
    · rw [dedupFirstAux, if_pos hx, ih seen a]
      constructor
      · rintro ⟨ht, hs⟩
        exact ⟨List.mem_cons_of_mem _ ht, hs⟩
      · rintro ⟨hor, hs⟩
        rcases List.mem_cons.mp hor with rfl | ht
        · exact absurd hx hs
        · exact ⟨ht, hs⟩
    · rw [dedupFirstAux, if_neg hx, List.mem_cons, ih (x :: seen) a]
      constructor
      · rintro (rfl | ⟨ht, hs⟩)
        · exact ⟨List.mem_cons_self _ _, hx⟩
        · simp only [List.mem_cons, not_or] at hs
          exact ⟨List.mem_cons_of_mem _ ht, hs.2⟩
      · rintro ⟨hor, hs⟩
        rcases List.mem_cons.mp hor with rfl | ht
        · exact Or.inl rfl
        · by_cases hax : a = x
          · exact Or.inl hax
          · exact Or.inr ⟨ht, by simp [hax, hs]⟩

lemma nodup_dedupFirstAux {α : Type} [DecidableEq α] (xs : List α) :
    ∀ seen : List α, (dedupFirstAux seen xs).Nodup := by
  induction xs with
  | nil => intro seen; simp [dedupFirstAux]
  | cons x t ih =>
    intro seen
    by_cases hx : x ∈ seen
    · rw [dedupFirstAux, if_pos hx]
      exact ih seen
    · rw [dedupFirstAux, if_neg hx]
      refine List.nodup_cons.mpr ⟨?_, ih (x :: seen)⟩
      intro hmem
      exact ((mem_dedupFirstAux t (x :: seen) x).mp hmem).2 (List.mem_cons_self _ _)

lemma mem_dedupFirst {α : Type} [DecidableEq α] {xs : List α} {a : α} :
    a ∈ dedupFirst xs ↔ a ∈ xs := by
  rw [dedupFirst, mem_dedupFirstAux]
  simp

lemma nodup_dedupFirst {α : Type} [DecidableEq α] (xs : List α) :
    (dedupFirst xs).Nodup :=
  nodup_dedupFirstAux xs []

lemma dedupFirst_perm_dedup {α : Type} [DecidableEq α] (xs : List α) :
    (dedupFirst xs).Perm xs.dedup := by
  rw [List.perm_ext_iff_of_nodup (nodup_dedupFirst xs) xs.nodup_dedup]
  intro a
  rw [mem_dedupFirst, List.mem_dedup]

lemma tally_keys {α : Type} [DecidableEq α] (xs : List α) :
    (tally xs).map Prod.fst = dedupFirst xs := by
  rw [tally, List.map_map]
  have h : Prod.fst ∘ (fun a : α => (a, xs.count a)) = id := rfl
  rw [h, List.map_id]

lemma mem_tally {α : Type} [DecidableEq α] {xs : List α} {p : α × Nat}
    (h : p ∈ tally xs) : p.1 ∈ xs ∧ p.2 = xs.count p.1 := by
  simp only [tally, List.mem_map] at h
  obtain ⟨a, ha, rfl⟩ := h
  exact ⟨mem_dedupFirst.mp ha, rfl⟩

lemma tally_sum_counts {α : Type} [DecidableEq α] (xs : List α) :
    ((tally xs).map Prod.snd).sum = xs.length := by
  have h1 : (tally xs).map Prod.snd = (dedupFirst xs).map (fun a => xs.count a) := by
    simp [tally]
  rw [h1, ((dedupFirst_perm_dedup xs).map (fun a => xs.count a)).sum_eq]
  exact List.sum_map_count_dedup_eq_length xs

lemma sortDescBySnd_perm {α β : Type} [LinearOrder β] (l : List (α × β)) :
    (sortDescBySnd l).Perm l :=
  List.perm_insertionSort descBySnd l

lemma sortDescBySnd_sorted {α β : Type} [LinearOrder β] (l : List (α × β)) :
    (sortDescBySnd l).Sorted descBySnd :=
  List.sorted_insertionSort descBySnd l

/-- Python's `x.split(',')` on the character list of a string: cut at every
comma; the empty string yields one empty piece. -/
def splitOnComma : List Char → List (List Char)
  | [] => [[]]
  | c :: t =>
    if c = ',' then [] :: splitOnComma t
    else
      match splitOnComma t with
      | [] => [[c]]
      | f :: rest => (c :: f) :: rest

/-- Python's `s.strip()`: remove leading and trailing whitespace characters. -/
def trimChars (l : List Char) : List Char :=
  ((l.dropWhile Char.isWhitespace).reverse.dropWhile Char.isWhitespace).reverse

/-- The token list of one Skills cell: `[s.strip() for s in x.split(',')]`
from app.py line 91. -/
def splitSkills (s : String) : List String :=
  (splitOnComma s.data).map (fun cs => String.mk (trimChars cs))

/-- All skill tokens of the view, app.py lines 91-92: drop missing Skills
cells, split each remaining cell on commas, trim each token, flatten. -/
def skillTokens (df : List Row) : List String :=
  ((df.filterMap Row.skills).map splitSkills).flatten

/-- `top_skills` from app.py line 93: `Counter(all_skills).most_common(10)`
— occurrence counts keyed in first-seen order, sorted descending by count
(stably, so ties stay in first-encountered order), first ten kept. -/
def top_skills (df : List Row) : List (String × Nat) :=
  (sortDescBySnd (tally (skillTokens df))).take 10

/-- `loc_count` from app.py lines 84-85:
`filtered_df['Location'].value_counts()` — occurrence counts of Location
values, sorted descending by count. -/
def loc_count (df : List Row) : List (String × Nat) :=
  sortDescBySnd (tally (df.map Row.location))

/-- The salaries of the rows with the given Job Title, the group that
`groupby('Job Title')['Salary']` forms for that key. -/
def salariesOf (df : List Row) (j : String) : List Int :=
  (df.filter (fun r => r.jobTitle == j)).map Row.salary

/-- Arithmetic mean of a list of integer salaries, as the exact rational
quotient sum / length. -/
def listMean (l : List Int) : Rat :=
  Rat.divInt l.sum (l.length : Int)

/-- `avg_salary_by_job` from app.py line 71: group rows by Job Title, take
the mean Salary of each group, and sort the (title, mean) pairs descending
by mean.  The order among tied means is implementation-defined in the
source (group keys are enumerated in pandas key order and `sort_values`
uses an unstable sort); here the groups are enumerated in first-seen order
and sorted stably, realizing one admissible order. -/
def avg_salary_by_job (df : List Row) : List (String × Rat) :=
  sortDescBySnd
    ((dedupFirst (df.map Row.jobTitle)).map
      (fun j => (j, listMean (salariesOf df j))))

/-- The three-row scenario table of the spec (section 8): no Date column,
all Skills present. -/
def scenarioTable : List Row :=
  [⟨"Data Scientist", "Tech", "NY", 100000, some "Python, SQL", none⟩,
   ⟨"Data Scientist", "Tech", "SF", 120000, some "Python", none⟩,
   ⟨"Analyst", "Finance", "NY", 70000, some "SQL", none⟩]

lemma scenario_skillTokens :
    skillTokens scenarioTable = ["Python", "SQL", "Python", "SQL"] := by decide

lemma scenario_top_skills :
    top_skills scenarioTable = [("Python", 2), ("SQL", 2)] := by decide

lemma scenario_loc_count_NY :
    loc_count (filtered_df scenarioTable [] [] ["NY"]) = [("NY", 2)] := by decide

/-- C2: the top-skills aggregate returns at most 10 entries; the returned
counts are the occurrence counts of the corresponding trimmed tokens and
sum to at most the total number of token occurrences in the filtered view;
entries are ordered by non-increasing count. -/
theorem C2_top_skills_bounds (df : List Row) :
    (top_skills df).length ≤ 10 ∧
    ((top_skills df).map Prod.snd).sum ≤ (skillTokens df).length ∧
    (∀ p ∈ top_skills df, p.2 = (skillTokens df).count p.1) ∧
    (top_skills df).Sorted descBySnd := by
  refine ⟨List.length_take_le _ _, ?_, ?_, ?_⟩
  · have hperm := (sortDescBySnd_perm (tally (skillTokens df))).map Prod.snd
    have hsum : ((sortDescBySnd (tally (skillTokens df))).map Prod.snd).sum
        = (skillTokens df).length := by
      rw [hperm.sum_eq, tally_sum_counts]
    calc ((top_skills df).map Prod.snd).sum
        = (((sortDescBySnd (tally (skillTokens df))).map Prod.snd).take 10).sum := by
          rw [top_skills, List.map_take]
      _ ≤ ((sortDescBySnd (tally (skillTokens df))).map Prod.snd).sum := by
          conv_rhs => rw [← List.take_append_drop 10
            ((sortDescBySnd (tally (skillTokens df))).map Prod.snd)]
          rw [List.sum_append]
          exact Nat.le_add_right _ _
      _ = (skillTokens df).length := hsum
  · intro p hp
    have h1 : p ∈ sortDescBySnd (tally (skillTokens df)) := List.mem_of_mem_take hp
    exact (mem_tally ((sortDescBySnd_perm _).mem_iff.mp h1)).2
  · exact List.Pairwise.sublist (List.take_sublist _ _) (sortDescBySnd_sorted _)

/-- C3: the mean-salary-by-job-title aggregate is ordered by non-increasing
mean, and on the spec's three-row scenario table with no filters it returns
Data Scientist with mean 110000 before Analyst with mean 70000. -/
theorem C3_avg_salary_sorted_desc_and_scenario (df : List Row) :
    (avg_salary_by_job df).Sorted descBySnd ∧
    avg_salary_by_job (filtered_df scenarioTable [] [] []) =
      [("Data Scientist", (110000 : Rat)), ("Analyst", (70000 : Rat))] :=
  ⟨sortDescBySnd_sorted _, by decide⟩

/-- C10: the job-count-by-location aggregate has exactly one entry per
distinct Location value of the filtered view (no duplicates, none missing),
each entry's count is the number of rows carrying that Location, and the
entries are ordered by non-increasing count. -/
theorem C10_loc_count_one_entry_per_location (v : List Row) :
    ((loc_count v).map Prod.fst).Nodup ∧
    (∀ l : String, l ∈ (loc_count v).map Prod.fst ↔ l ∈ v.map Row.location) ∧
    (∀ p ∈ loc_count v, p.2 = (v.map Row.location).count p.1) ∧
    (loc_count v).Sorted descBySnd := by
  have hperm : (loc_count v).Perm (tally (v.map Row.location)) := sortDescBySnd_perm _
  have hkeys := hperm.map Prod.fst
  refine ⟨?_, ?_, ?_, sortDescBySnd_sorted _⟩
  · rw [hkeys.nodup_iff, tally_keys]
    exact nodup_dedupFirst _
  · intro l
    rw [hkeys.mem_iff, tally_keys, mem_dedupFirst]
  · intro p hp
    exact (mem_tally (hperm.mem_iff.mp hp)).2

/-- Python's `x.split(sep)` for a single-character separator, on character
lists: cut at every occurrence; the empty input yields one empty piece. -/
def splitOnChar (sep : Char) : List Char → List (List Char)
  | [] => [[]]
  | c :: t =>
    if c = sep then [] :: splitOnChar sep t
    else
      match splitOnChar sep t with
      | [] => [[c]]
      | f :: rest => (c :: f) :: rest

/-- Numeric value of a digit string (used only after checking `isDigit`). -/
def digitsVal (l : List Char) : Nat :=
  l.foldl (fun acc c => acc * 10 + (c.toNat - 48)) 0

/-- Modelled fragment of `pd.to_datetime(..., errors='coerce')` (app.py
line 110), restricted to the ISO `YYYY-MM-DD` shape the dataset uses:
a value of any other shape, with out-of-range month or day, or with
non-digit characters fails to parse (becomes `NaT`, here `none`).  The
result keeps only the (year, month) pair, which is all the `freq='M'`
monthly grouping consumes. -/
def parseDate (s : String) : Option (Nat × Nat) :=
  match splitOnChar '-' s.data with
  | [y, m, d] =>
    if y.length = 4 && y.all Char.isDigit && m.length = 2 && m.all Char.isDigit
        && d.length = 2 && d.all Char.isDigit then
      let mn := digitsVal m
      let dn := digitsVal d
      if 1 ≤ mn && mn ≤ 12 && 1 ≤ dn && dn ≤ 31 then some (digitsVal y, mn) else none
    else none
  | _ => none

/-- Linear calendar-month index: months are totally ordered by it and it is
injective on (year, month in 1..12) pairs. -/
def monthIdx (ym : Nat × Nat) : Nat :=
  ym.1 * 12 + (ym.2 - 1)

/-- The (month, salary) pairs surviving date parsing, app.py lines 109-111:
coerce Date, drop the rows whose Date failed to parse. -/
def timeRows (df : List Row) : List (Nat × Int) :=
  df.filterMap (fun r => (r.date.bind parseDate).map (fun ym => (monthIdx ym, r.salary)))

/-- Mean salary of the rows falling in month `mo`: `none` when the month
has no rows (an empty bin, pandas NaN). -/
def monthMean (tr : List (Nat × Int)) (mo : Nat) : Option Rat :=
  let sal := (tr.filter (fun q => q.1 == mo)).map Prod.snd
  if sal.isEmpty then none else some (listMean sal)

/-- `groupby(pd.Grouper(key='Date', freq='M'))['Salary'].mean()` (app.py
line 112): with resample-like semantics the bins run over every calendar
month from the earliest to the latest date present, so months inside the
range with no rows still get a bin, whose mean is NaN (`none`). -/
def monthlyFromRows : List (Nat × Int) → List (Nat × Option Rat)
  | [] => []
  | p :: ps =>
    let lo := (ps.map Prod.fst).foldl Nat.min p.1
    let hi := (ps.map Prod.fst).foldl Nat.max p.1
    (List.range' lo (hi + 1 - lo)).map (fun mo => (mo, monthMean (p :: ps) mo))

/-- `df_time` of app.py lines 107-112: the monthly mean-salary trend of the
filtered view. -/
def monthly_trend (df : List Row) : List (Nat × Option Rat) :=
  monthlyFromRows (timeRows df)

lemma foldl_nmin_le_init : ∀ (ms : List Nat) (m : Nat), ms.foldl Nat.min m ≤ m := by
  intro ms
  induction ms with
  | nil => intro m; exact Nat.le_refl m
  | cons x t ih =>
    intro m
    exact Nat.le_trans (ih (Nat.min m x)) (Nat.min_le_left m x)

lemma foldl_nmin_le_mem : ∀ (ms : List Nat) (m x : Nat), x ∈ ms → ms.foldl Nat.min m ≤ x := by
  intro ms
  induction ms with
  | nil => intro m x hx; cases hx
  | cons y t ih =>
    intro m x hx
    rcases List.mem_cons.mp hx with rfl | hx
    · exact Nat.le_trans (foldl_nmin_le_init t (Nat.min m x)) (Nat.min_le_right m x)
    · exact ih (Nat.min m y) x hx

lemma foldl_nmin_mem : ∀ (ms : List Nat) (m : Nat),
    ms.foldl Nat.min m = m ∨ ms.foldl Nat.min m ∈ ms := by
  intro ms
  induction ms with
  | nil => intro m; exact Or.inl rfl
  | cons x t ih =>
    intro m
    rcases ih (Nat.min m x) with h | h
    · have h2 : Nat.min m x = m ∨ Nat.min m x = x := by
        by_cases hmx : m ≤ x
        · exact Or.inl (Nat.min_eq_left hmx)
        · exact Or.inr (Nat.min_eq_right (Nat.le_of_not_le hmx))
      have h3 : (x :: t).foldl Nat.min m = Nat.min m x := by
        rw [List.foldl_cons]; exact h
      rcases h2 with h2 | h2
      · exact Or.inl (h3.trans h2)
      · exact Or.inr (by rw [h3, h2]; exact List.mem_cons_self x t)
    · exact Or.inr (List.mem_cons_of_mem x h)

lemma foldl_nmax_init_le : ∀ (ms : List Nat) (m : Nat), m ≤ ms.foldl Nat.max m := by
  intro ms
  induction ms with
  | nil => intro m; exact Nat.le_refl m
  | cons x t ih =>
    intro m
    exact Nat.le_trans (Nat.le_max_left m x) (ih (Nat.max m x))

lemma foldl_nmax_mem_le : ∀ (ms : List Nat) (m x : Nat), x ∈ ms → x ≤ ms.foldl Nat.max m := by
  intro ms
  induction ms with
  | nil => intro m x hx; cases hx
  | cons y t ih =>
    intro m x hx
    rcases List.mem_cons.mp hx with rfl | hx
    · exact Nat.le_trans (Nat.le_max_right m x) (foldl_nmax_init_le t (Nat.max m x))
    · exact ih (Nat.max m y) x hx

lemma foldl_nmax_mem : ∀ (ms : List Nat) (m : Nat),
    ms.foldl Nat.max m = m ∨ ms.foldl Nat.max m ∈ ms := by
  intro ms
  induction ms with
  | nil => intro m; exact Or.inl rfl
  | cons x t ih =>
    intro m
    rcases ih (Nat.max m x) with h | h
    · have h2 : Nat.max m x = m ∨ Nat.max m x = x := by
        by_cases hmx : m ≤ x
        · exact Or.inr (Nat.max_eq_right hmx)
        · exact Or.inl (Nat.max_eq_left (Nat.le_of_not_le hmx))
      have h3 : (x :: t).foldl Nat.max m = Nat.max m x := by
        rw [List.foldl_cons]; exact h
      rcases h2 with h2 | h2
      · exact Or.inl (h3.trans h2)
      · exact Or.inr (by rw [h3, h2]; exact List.mem_cons_self x t)
    · exact Or.inr (List.mem_cons_of_mem x h)

lemma pairwise_lt_range' : ∀ (n lo : Nat), (List.range' lo n).Pairwise (· < ·) := by
  intro n
  induction n with
  | zero => intro lo; simp
  | succ k ih =>
    intro lo
    rw [List.range'_succ]
    refine List.pairwise_cons.mpr ⟨?_, ih (lo + 1)⟩
    intro m hm
    have := (List.mem_range'_1.mp hm).1
    omega

lemma monthlyFromRows_map_fst (p : Nat × Int) (ps : List (Nat × Int)) :
    (monthlyFromRows (p :: ps)).map Prod.fst =
      List.range' ((ps.map Prod.fst).foldl Nat.min p.1)
        ((ps.map Prod.fst).foldl Nat.max p.1 + 1 - (ps.map Prod.fst).foldl Nat.min p.1) := by
  rw [monthlyFromRows, List.map_map]
  have h : Prod.fst ∘ (fun mo : Nat => (mo, monthMean (p :: ps) mo)) = id := rfl
  rw [h, List.map_id]

lemma monthlyFromRows_snd {tr : List (Nat × Int)} {q : Nat × Option Rat}
    (hq : q ∈ monthlyFromRows tr) : q.2 = monthMean tr q.1 := by
  match tr with
  | [] => cases hq
  | p :: ps =>
    rw [monthlyFromRows] at hq
    simp only [List.mem_map] at hq
    obtain ⟨mo, _, rfl⟩ := hq
    rfl

lemma monthlyFromRows_mem_fst_iff (tr : List (Nat × Int)) (mo : Nat) :
    mo ∈ (monthlyFromRows tr).map Prod.fst ↔
      (∃ q ∈ tr, q.1 ≤ mo) ∧ (∃ q ∈ tr, mo ≤ q.1) := by
  match tr with
  | [] => simp [monthlyFromRows]
  | p :: ps =>
    rw [monthlyFromRows_map_fst, List.mem_range'_1]
    constructor
    · rintro ⟨hlo, hhi⟩
      constructor
      · rcases foldl_nmin_mem (ps.map Prod.fst) p.1 with h | h
        · exact ⟨p, List.mem_cons_self p ps, by omega⟩
        · obtain ⟨q, hq, hq1⟩ := List.mem_map.mp h
          exact ⟨q, List.mem_cons_of_mem p hq, by omega⟩
      · rcases foldl_nmax_mem (ps.map Prod.fst) p.1 with h | h
        · exact ⟨p, List.mem_cons_self p ps, by omega⟩
        · obtain ⟨q, hq, hq1⟩ := List.mem_map.mp h
          exact ⟨q, List.mem_cons_of_mem p hq, by omega⟩
    · rintro ⟨⟨ql, hql, hql2⟩, ⟨qh, hqh, hqh2⟩⟩
      have hlo : (ps.map Prod.fst).foldl Nat.min p.1 ≤ mo := by
        rcases List.mem_cons.mp hql with rfl | hmem
        · have := foldl_nmin_le_init (ps.map Prod.fst) ql.1
          omega
        · have := foldl_nmin_le_mem (ps.map Prod.fst) p.1 ql.1
            (List.mem_map.mpr ⟨ql, hmem, rfl⟩)
          omega
      have hhi : mo ≤ (ps.map Prod.fst).foldl Nat.max p.1 := by
        rcases List.mem_cons.mp hqh with rfl | hmem
        · have := foldl_nmax_init_le (ps.map Prod.fst) qh.1
          omega
        · have := foldl_nmax_mem_le (ps.map Prod.fst) p.1 qh.1
            (List.mem_map.mpr ⟨qh, hmem, rfl⟩)
          omega
      exact ⟨hlo, by omega⟩

/-- C4 (amended): the monthly trend keeps exactly the rows whose Date
parses, and contains exactly one entry per calendar month in the inclusive
range from the earliest to the latest parsed month — strictly
chronologically ordered, so no month twice — each entry carrying the mean
Salary of that month's rows, or an empty value for an in-range month with
no rows.  (The original claim that no month absent from the data appears
fails on gap months; see the counterexample.) -/
theorem C4_monthly_trend_contiguous_months (df : List Row) :
    ((monthly_trend df).map Prod.fst).Pairwise (· < ·) ∧
    (∀ mo : Nat, mo ∈ (monthly_trend df).map Prod.fst ↔
      (∃ q ∈ timeRows df, q.1 ≤ mo) ∧ (∃ q ∈ timeRows df, mo ≤ q.1)) ∧
    (∀ p ∈ monthly_trend df, p.2 = monthMean (timeRows df) p.1) := by
  refine ⟨?_, ?_, ?_⟩
  · rw [monthly_trend]
    cases htr : timeRows df with
    | nil => simp [monthlyFromRows]
    | cons p ps =>
      rw [monthlyFromRows_map_fst]
      exact pairwise_lt_range' _ _
  · intro mo
    rw [monthly_trend, monthlyFromRows_mem_fst_iff]
  · intro p hp
    rw [monthly_trend] at hp
    exact monthlyFromRows_snd hp

/-- Two-row table whose valid dates fall in January and March of 2024,
leaving February with no rows. -/
def gapTable : List Row :=
  [⟨"Data Scientist", "Tech", "NY", 100000, some "Python", some "2024-01-15"⟩,
   ⟨"Analyst", "Finance", "NY", 70000, some "SQL", some "2024-03-15"⟩]

/-- C4 counterexample: on `gapTable` the monthly trend contains an entry
(February 2024) whose month is not among the months of the validly parsed
dates, refuting "no month absent from the data". -/
theorem C4_counterexample_gap_month :
    ¬ (∀ p ∈ monthly_trend gapTable, p.1 ∈ (timeRows gapTable).map Prod.fst) := by decide

/-- The salary-distribution-by-industry aggregate (app.py lines 78-79):
a pass-through of the (Industry, Salary) pairs of the filtered view for the
box plot. -/
def industry_salary (df : List Row) : List (String × Int) :=
  df.map (fun r => (r.industry, r.salary))

/-- Test whether salary `s` falls in bin `i` of 20 equal-width bins over
[lo, hi]; the last bin is closed on the right. -/
def inBin (lo hi : Int) (i : Nat) (s : Int) : Bool :=
  let w : Rat := Rat.divInt (hi - lo) 20
  let lower : Rat := (lo : Rat) + (i : Rat) * w
  let upper : Rat := (lo : Rat) + ((i : Rat) + 1) * w
  if i = 19 then decide (lower ≤ (s : Rat) ∧ (s : Rat) ≤ upper)
  else decide (lower ≤ (s : Rat) ∧ (s : Rat) < upper)

/-- The salary histogram (app.py line 102): `sns.histplot(..., bins=20)`
bins the Salary column into 20 equal-width bins over its observed range and
counts the rows per bin; an empty view yields no bins. -/
def salary_hist (df : List Row) : List Nat :=
  match df.map Row.salary with
  | [] => []
  | s :: ss =>
    let lo := ss.foldl min s
    let hi := ss.foldl max s
    (List.range 20).map (fun i => (s :: ss).countP (inBin lo hi i))

/-- C7: whenever the three selection sets filter out every row, each of
the six aggregates of the dashboard evaluates to an empty result (and,
being total functions, none can fail). -/
theorem C7_aggregates_empty_on_empty_view
    (df : List Row) (sj si sl : List String)
    (h : filtered_df df sj si sl = []) :
    avg_salary_by_job (filtered_df df sj si sl) = [] ∧
    industry_salary (filtered_df df sj si sl) = [] ∧
    loc_count (filtered_df df sj si sl) = [] ∧
    top_skills (filtered_df df sj si sl) = [] ∧
    salary_hist (filtered_df df sj si sl) = [] ∧
    monthly_trend (filtered_df df sj si sl) = [] := by
  rw [h]
  exact ⟨rfl, rfl, rfl, rfl, rfl, rfl⟩

/-- Witness for C7: on the scenario table, selecting a job title that no
row carries empties the view, and every aggregate returns empty. -/
theorem C7_aggregates_empty_witness :
    filtered_df scenarioTable ["Surgeon"] [] [] = [] ∧
    (avg_salary_by_job (filtered_df scenarioTable ["Surgeon"] [] []) = [] ∧
     industry_salary (filtered_df scenarioTable ["Surgeon"] [] []) = [] ∧
     loc_count (filtered_df scenarioTable ["Surgeon"] [] []) = [] ∧
     top_skills (filtered_df scenarioTable ["Surgeon"] [] []) = [] ∧
     salary_hist (filtered_df scenarioTable ["Surgeon"] [] []) = [] ∧
     monthly_trend (filtered_df scenarioTable ["Surgeon"] [] []) = []) :=
  ⟨by decide, C7_aggregates_empty_on_empty_view scenarioTable ["Surgeon"] [] [] (by decide)⟩

/-- A field must be quoted when it contains the delimiter, the quote
character, or a line-break character — csv.QUOTE_MINIMAL, the quoting mode
`DataFrame.to_csv` uses. -/
def needsQuote (f : List Char) : Bool :=
  f.any (fun c => c = ',' || c = '"' || c = '\n' || c = '\r')

/-- Double every quote character, the CSV escape used inside quoted
fields. -/
def escapeQuotes : List Char → List Char
  | [] => []
  | c :: t => if c = '"' then '"' :: '"' :: escapeQuotes t else c :: escapeQuotes t

/-- Serialize one field: wrap in quotes (escaping inner quotes) exactly
when the content requires it. -/
def renderField (f : List Char) : List Char :=
  if needsQuote f then '"' :: (escapeQuotes f ++ ['"']) else f

/-- Serialize one record: fields joined by commas. -/
def renderRecord : List (List Char) → List Char
  | [] => []
  | [f] => renderField f
  | f :: g :: t => renderField f ++ ',' :: renderRecord (g :: t)

/-- Serialize a record list: each record on one line terminated by a
newline, as `to_csv` emits (header line first, trailing newline). -/
def renderCsv (rs : List (List (List Char))) : List Char :=
  (rs.map (fun r => renderRecord r ++ ['\n'])).flatten

/-- CSV reading state machine.  `inQ` is true inside a quoted field, `f`
holds the current field reversed, `r` the finished fields of the current
record reversed, `acc` the finished records reversed. -/
def parseCsvAux (cs : List Char) (inQ : Bool) (f : List Char)
    (r : List (List Char)) (acc : List (List (List Char))) :
    List (List (List Char)) :=
  match cs with
  | [] =>
    if inQ = false ∧ f = [] ∧ r = [] then acc.reverse
    else ((f.reverse :: r).reverse :: acc).reverse
  | c :: t =>
    if inQ then
      if c = '"' then
        match t with
        | '"' :: t2 => parseCsvAux t2 true ('"' :: f) r acc
        | t1 => parseCsvAux t1 false f r acc
      else parseCsvAux t true (c :: f) r acc
    else
      if c = ',' then parseCsvAux t false [] (f.reverse :: r) acc
      else if c = '\n' then parseCsvAux t false [] [] ((f.reverse :: r).reverse :: acc)
      else if c = '"' ∧ f = [] then parseCsvAux t true [] r acc
      else parseCsvAux t false (c :: f) r acc
termination_by cs.length
decreasing_by all_goals (simp only [List.length_cons]; omega)

/-- Parse delimited text into records of fields. -/
def parseCsv (cs : List Char) : List (List (List Char)) :=
  parseCsvAux cs false [] [] []

lemma parse_unquoted (f : List Char)
    (hf : ∀ c ∈ f, ¬(c = ',' ∨ c = '"' ∨ c = '\n')) :
    ∀ (rest fa : List Char) (r : List (List Char)) (acc : List (List (List Char))),
      parseCsvAux (f ++ rest) false fa r acc
        = parseCsvAux rest false (f.reverse ++ fa) r acc := by
  induction f with
  | nil => intro rest fa r acc; simp
  | cons c f' ih =>
    intro rest fa r acc
    have hc := hf c (List.mem_cons_self c f')
    push_neg at hc
    obtain ⟨h1, h2, h3⟩ := hc
    have hstep : parseCsvAux (c :: (f' ++ rest)) false fa r acc
        = parseCsvAux (f' ++ rest) false (c :: fa) r acc := by
      rw [parseCsvAux.eq_def]
      simp [h1, h2, h3]
    rw [List.cons_append, hstep, ih (fun d hd => hf d (List.mem_cons_of_mem _ hd))]
    simp

lemma parse_quoted (f : List Char) :
    ∀ (rest fa : List Char) (r : List (List Char)) (acc : List (List (List Char))),
      (rest = [] ∨ ∃ c t, rest = c :: t ∧ c ≠ '"') →
      parseCsvAux (escapeQuotes f ++ '"' :: rest) true fa r acc
        = parseCsvAux rest false (f.reverse ++ fa) r acc := by
  induction f with
  | nil =>
    intro rest fa r acc hrest
    rcases hrest with rfl | ⟨c, t, rfl, hc⟩
    · simp only [escapeQuotes, List.nil_append, List.reverse_nil]
      rw [parseCsvAux.eq_def]
      simp
    · simp only [escapeQuotes, List.nil_append, List.reverse_nil]
      rw [parseCsvAux.eq_def]
      simp [hc]
  | cons d f' ih =>
    intro rest fa r acc hrest
    by_cases hd : d = '"'
    · subst hd
      have hesc : escapeQuotes ('"' :: f') = '"' :: '"' :: escapeQuotes f' := by
        rw [escapeQuotes]
        simp
      have hstep : parseCsvAux ('"' :: ('"' :: (escapeQuotes f' ++ '"' :: rest))) true fa r acc
          = parseCsvAux (escapeQuotes f' ++ '"' :: rest) true ('"' :: fa) r acc := by
        rw [parseCsvAux.eq_def]
        simp
      rw [hesc, List.cons_append, List.cons_append, hstep,
        ih rest ('"' :: fa) r acc hrest]
      simp
    · have hesc : escapeQuotes (d :: f') = d :: escapeQuotes f' := by
        rw [escapeQuotes]
        simp [hd]
      have hstep : parseCsvAux (d :: (escapeQuotes f' ++ '"' :: rest)) true fa r acc
          = parseCsvAux (escapeQuotes f' ++ '"' :: rest) true (d :: fa) r acc := by
        rw [parseCsvAux.eq_def]
        simp [hd]
      rw [hesc, List.cons_append, hstep, ih rest (d :: fa) r acc hrest]
      simp

lemma parse_field (f : List Char) (rest : List Char) (r : List (List Char))
    (acc : List (List (List Char)))
    (hrest : rest = [] ∨ (∃ t, rest = ',' :: t) ∨ (∃ t, rest = '\n' :: t)) :
    parseCsvAux (renderField f ++ rest) false [] r acc
      = parseCsvAux rest false f.reverse r acc := by
  by_cases hq : needsQuote f
  · rw [renderField, if_pos hq]
    have hshape : (('"' : Char) :: (escapeQuotes f ++ ['"'])) ++ rest
        = '"' :: (escapeQuotes f ++ '"' :: rest) := by
      simp
    have hstep : parseCsvAux ('"' :: (escapeQuotes f ++ '"' :: rest)) false [] r acc
        = parseCsvAux (escapeQuotes f ++ '"' :: rest) true [] r acc := by
      rw [parseCsvAux.eq_def]
      simp
    have hre : rest = [] ∨ ∃ c t, rest = c :: t ∧ c ≠ '"' := by
      rcases hrest with rfl | ⟨t, rfl⟩ | ⟨t, rfl⟩
      · exact Or.inl rfl
      · exact Or.inr ⟨',', t, rfl, by decide⟩
      · exact Or.inr ⟨'\n', t, rfl, by decide⟩
    rw [hshape, hstep, parse_quoted f rest [] r acc hre]
    simp
  · rw [renderField, if_neg hq]
    have hf : ∀ c ∈ f, ¬(c = ',' ∨ c = '"' ∨ c = '\n') := by
      intro c hc
      simp only [needsQuote, List.any_eq_true, Bool.or_eq_true, decide_eq_true_eq] at hq
      push_neg at hq
      have := hq c hc
      tauto
    rw [parse_unquoted f hf rest [] r acc]
    simp

lemma parse_record (fs : List (List Char)) (hfs : fs ≠ []) :
    ∀ (rest : List Char) (r : List (List Char)) (acc : List (List (List Char))),
      parseCsvAux (renderRecord fs ++ '\n' :: rest) false [] r acc
        = parseCsvAux rest false [] [] ((r.reverse ++ fs) :: acc) := by
  induction fs with
  | nil => exact absurd rfl hfs
  | cons f gs ih =>
    intro rest r acc
    cases gs with
    | nil =>
      rw [show renderRecord [f] = renderField f from rfl,
        parse_field f ('\n' :: rest) r acc (Or.inr (Or.inr ⟨rest, rfl⟩))]
      have hstep : parseCsvAux ('\n' :: rest) false f.reverse r acc
          = parseCsvAux rest false [] [] ((f.reverse.reverse :: r).reverse :: acc) := by
        rw [parseCsvAux.eq_def]
        simp
      rw [hstep]
      simp
    | cons g t =>
      rw [show renderRecord (f :: g :: t) = renderField f ++ ',' :: renderRecord (g :: t)
          from rfl]
      have hshape : (renderField f ++ ',' :: renderRecord (g :: t)) ++ '\n' :: rest
          = renderField f ++ (',' :: (renderRecord (g :: t) ++ '\n' :: rest)) := by
        simp
      rw [hshape, parse_field f (',' :: (renderRecord (g :: t) ++ '\n' :: rest)) r acc
        (Or.inr (Or.inl ⟨renderRecord (g :: t) ++ '\n' :: rest, rfl⟩))]
      have hstep : parseCsvAux (',' :: (renderRecord (g :: t) ++ '\n' :: rest)) false
            f.reverse r acc
          = parseCsvAux (renderRecord (g :: t) ++ '\n' :: rest) false []
            (f.reverse.reverse :: r) acc := by
        rw [parseCsvAux.eq_def]
        simp
      rw [hstep, List.reverse_reverse, ih (List.cons_ne_nil g t) rest (f :: r) acc]
      simp

lemma parse_csv_records (rs : List (List (List Char))) (h : ∀ rec ∈ rs, rec ≠ []) :
    ∀ acc : List (List (List Char)),
      parseCsvAux (renderCsv rs) false [] [] acc = acc.reverse ++ rs := by
  induction rs with
  | nil =>
    intro acc
    rw [show renderCsv [] = [] from rfl, parseCsvAux.eq_def]
    simp
  | cons rec rs' ih =>
    intro acc
    have hshape : renderCsv (rec :: rs') = renderRecord rec ++ '\n' :: renderCsv rs' := by
      rw [renderCsv, List.map_cons, List.flatten_cons]
      simp [renderCsv]
    rw [hshape, parse_record rec (h rec (List.mem_cons_self rec rs')) (renderCsv rs') [] acc]
    simp only [List.reverse_nil, List.nil_append]
    rw [ih (fun g hg => h g (List.mem_cons_of_mem rec hg)) (rec :: acc)]
    simp

/-- The header row `to_csv` writes first: the source table's columns in
order. -/
def headerFields : List (List Char) :=
  ["Job Title".data, "Industry".data, "Location".data,
   "Salary".data, "Skills".data, "Date".data]

/-- One row serialized to its six field texts, in the source table's column
order; a missing Skills/Date cell becomes an empty field. -/
def rowFields (r : Row) : List (List Char) :=
  [r.jobTitle.data, r.industry.data, r.location.data, (toString r.salary).data,
   (r.skills.getD "").data, (r.date.getD "").data]

/-- The records `to_csv(index=False)` emits: header first, then every row
of the view in order. -/
def csvRecords (df : List Row) : List (List (List Char)) :=
  headerFields :: df.map rowFields

/-- `filtered_df.to_csv(index=False)` (app.py line 119): the filtered view
as comma-delimited text, one header line then one line per row, each line
newline-terminated, fields quoted exactly where CSV requires. -/
def to_csv (df : List Row) : List Char :=
  renderCsv (csvRecords df)

/-- C8: parsing the exported CSV text recovers exactly the header (the
source column order) followed by the rows of the filtered view, each as its
serialized field values — the export round-trips. -/
theorem C8_export_roundtrip (df : List Row) :
    parseCsv (to_csv df) = csvRecords df := by
  rw [to_csv, parseCsv, parse_csv_records (csvRecords df) ?hne []]
  · simp
  case hne =>
    intro rec hrec
    rcases List.mem_cons.mp hrec with rfl | hmem
    · simp [headerFields]
    · obtain ⟨r, _, rfl⟩ := List.mem_map.mp hmem
      simp [rowFields]
